import Mathlib

/-!
# Verification of the ribzip2 stream orchestration layer (`src/cli/src/stream.rs`)

This file shallowly embeds the stream-level orchestration code of the
repository and proves the frozen claims about it.

The source file under verification contains:
* the encode orchestrator `write_stream_data` with its worker scatter/gather
  rounds and the running combined CRC
  (`total_crc = result.1 ^ ((total_crc << 1) | (total_crc >> 31))` on `u32`),
* the decoder helpers `read_file_header` and `what_next`, and
* the decode entry point `write_stream`.

External collaborators (`BitReader`/`BitWriter`, `generate_block_data`,
`decode_block`, `file_header`, `stream_footer`) are not part of the source
under `src/`; they are modelled from the spec, each marked as such in its
doc comment, or kept as parameters constrained by the spec's contracts.

Modelling conventions:
* a bit is a `Bool` (`true` = 1), a byte is a `Nat < 256`, bytes are packed
  MSB-first into the bit stream;
* `u32` arithmetic is `Nat` with explicit `% 2^32` where wraparound matters;
* the `Read` object handed to the encoder is modelled by the sequence of
  results its successive `take(BLOCK_SIZE).read_to_end` calls return:
  a list of `Except Unit (List Nat)` events (an `Except.error` is an I/O
  error, `Except.ok []` is a clean zero-byte end-of-input); once the list is
  exhausted every further read yields `Except.ok []`.  A pure in-memory byte
  source with contents `input` produces the event list
  `(blockChunks input).map Except.ok`;
* Rust `Result<_, ()>` is `Except Unit _`; a fallible read of bits is an
  `Option`.
-/

set_option autoImplicit false
set_option maxRecDepth 8192

namespace Ribzip2

/-! ## Bits and bytes

Modelled from the spec: the bit source/sink abstractions are byte-aligned
read/write over a bit-granular stream; bytes are packed MSB-first. -/

/-- The 8 bits of a byte, most significant first.
Modelled from the spec: MSB-first bit packing of the bit I/O primitives. -/
def bitsOfByte (b : Nat) : List Bool :=
  [b.testBit 7, b.testBit 6, b.testBit 5, b.testBit 4,
   b.testBit 3, b.testBit 2, b.testBit 1, b.testBit 0]

/-- All bits of a byte list, in order, MSB-first within each byte. -/
def bitsOfBytes (bs : List Nat) : List Bool :=
  (bs.map bitsOfByte).flatten

/-- Reassemble a byte from its MSB-first bits. -/
def byteOfBits (l : List Bool) : Nat :=
  l.foldl (fun a b => 2 * a + (if b then 1 else 0)) 0

/-- Read one byte (8 bits, MSB first) from a bit stream; `none` if fewer
than 8 bits remain.  Modelled from the spec: `BitReader` byte reads. -/
def readBits8 : List Bool → Option (Nat × List Bool)
  | b0 :: b1 :: b2 :: b3 :: b4 :: b5 :: b6 :: b7 :: rest =>
      some (byteOfBits [b0, b1, b2, b3, b4, b5, b6, b7], rest)
  | _ => none

/-- `BitReader::read_bytes(n)`: read `n` bytes from the bit stream,
failing if the stream is exhausted first.
Modelled from the spec: the bit-level reader primitive. -/
def readBytes : Nat → List Bool → Option (List Nat × List Bool)
  | 0, bits => some ([], bits)
  | n + 1, bits =>
    match readBits8 bits with
    | none => none
    | some (b, rest) =>
      match readBytes n rest with
      | none => none
      | some (bs, rest2) => some (b :: bs, rest2)

/-! ## The decoder's marker and header functions (from `stream.rs`) -/

/-- The `BlockType` enumeration of `stream.rs`. -/
inductive BlockType where
  | StreamFooter : BlockType
  | BlockHeader : BlockType
deriving DecidableEq

/-- The 6 block-start magic bytes `0x31 0x41 0x59 0x26 0x53 0x59`. -/
def blockMagic : List Nat := [0x31, 0x41, 0x59, 0x26, 0x53, 0x59]

/-- The 6 stream-end magic bytes `0x17 0x72 0x45 0x38 0x50 0x90`. -/
def footerMagic : List Nat := [0x17, 0x72, 0x45, 0x38, 0x50, 0x90]

/-- `read_file_header`: read 4 bytes; the Rust slice pattern
`[b'B', b'Z', b'h', _]` accepts exactly the 3 signature bytes followed by an
arbitrary version byte.  On success the reader has advanced past the 4
bytes, which we model by returning the remaining bits. -/
def read_file_header (bits : List Bool) : Except Unit (List Bool) :=
  match readBytes 4 bits with
  | none => Except.error ()
  | some (res, rest) =>
    match res with
    | b0 :: b1 :: b2 :: _ =>
        if b0 = 66 ∧ b1 = 90 ∧ b2 = 104 then Except.ok rest
        else Except.error ()
    | _ => Except.error ()

/-- `what_next`: read 6 bytes and match them against the two magic
constants; the Rust slice patterns are equality tests on the 6 bytes. -/
def what_next (bits : List Bool) : Except Unit (BlockType × List Bool) :=
  match readBytes 6 bits with
  | none => Except.error ()
  | some (res, rest) =>
      if res = blockMagic then Except.ok (BlockType.BlockHeader, rest)
      else if res = footerMagic then Except.ok (BlockType.StreamFooter, rest)
      else Except.error ()

/-! ## The encode orchestrator (from `stream.rs`)

`write_stream_data` chunks the input via
`read.by_ref().take(BLOCK_SIZE as u64).read_to_end(&mut buf)`, scatters the
chunks over `num_threads` worker threads in fixed index order, and gathers
results in the same order (`flush_work_buffer`).  Because every round's
gather fully drains before the next scatter, the whole computation is
deterministic and is embedded as a pure function of the sequence of read
results (`ReadEvent`s). -/

/-- `BLOCK_SIZE` from `write_stream_data`. -/
def BLOCK_SIZE : Nat := 720000

/-- One result of a `take(BLOCK_SIZE).read_to_end` call: `Except.error` is
an I/O error, `Except.ok bs` a successful read of the bytes `bs` (empty at
end of input). -/
abbrev ReadEvent := Except Unit (List Nat)

/-- The chunking a pure in-memory byte source undergoes: successive reads
through `take(BLOCK_SIZE)` return the successive `BLOCK_SIZE`-sized chunks
of the contents (the last one possibly shorter), then empty reads. -/
def blockChunks (l : List Nat) : List (List Nat) :=
  match l with
  | [] => []
  | x :: xs => (x :: xs).take BLOCK_SIZE :: blockChunks ((x :: xs).drop BLOCK_SIZE)
termination_by l.length
decreasing_by simp [BLOCK_SIZE]; omega

/-- The read events a pure byte source with contents `input` produces. -/
def eventsOfInput (input : List Nat) : List ReadEvent :=
  (blockChunks input).map Except.ok

/-- The `u32` update in `flush_work_buffer`:
`*total_crc = result.1 ^ ((*total_crc << 1) | (*total_crc >> 31))`,
with the `u32` left shift wrapping modulo `2^32`. -/
def crcUpdate (total c : Nat) : Nat :=
  c ^^^ (((total <<< 1) % 2 ^ 32) ||| (total >>> 31))

/-- Left rotation of a 32-bit value by one position: shift left, fold the
overflowing bit 32 back onto bit 0. -/
def rotateLeft32 (x : Nat) : Nat :=
  ((x <<< 1) ||| (x >>> 31)) % 2 ^ 32

/-- State accumulated by the encode loop: the running CRC, the bits written
to the output after the file header, and (a history variable) the raw
blocks dispatched to workers, in dispatch order. -/
structure EncSt where
  crc : Nat
  out : List Bool
  blocks : List (List Nat)
deriving DecidableEq

/-- The scatter phase of one round, over the workers in index order.
`scatterAux n evs` feeds up to `n` workers from the read events `evs` and
returns the remaining events, the dispatched blocks in dispatch order, and
the `finalize` flag.  A zero-byte read (`Except.ok []`, or an exhausted
event list) sets `finalize` and breaks; an I/O error breaks without setting
`finalize` (the `else { break; }` arm of `write_stream_data`). -/
def scatterAux : Nat → List ReadEvent → List ReadEvent × List (List Nat) × Bool
  | 0, evs => (evs, [], false)
  | _ + 1, [] => ([], [], true)
  | _ + 1, Except.error _ :: evs => (evs, [], false)
  | _ + 1, Except.ok [] :: evs => (evs, [], true)
  | n + 1, Except.ok (b :: bs) :: evs =>
      let r := scatterAux n evs
      (r.1, (b :: bs) :: r.2.1, r.2.2)

/-- `flush_work_buffer` for one worker's result: append the compressed bits
to the output and fold the block checksum into the running CRC.  `gen` is
the external `generate_block_data` (compressed bits, block checksum). -/
def flushOne (gen : List Nat → List Bool × Nat) (s : EncSt) (b : List Nat) : EncSt :=
  ⟨crcUpdate s.crc (gen b).2, s.out ++ (gen b).1, s.blocks ++ [b]⟩

/-- The gather phase of one round: drain the pending workers in the same
index order they were fed, i.e. fold `flushOne` over the dispatched blocks
in dispatch order. -/
def gatherSt (gen : List Nat → List Bool × Nat) (disp : List (List Nat))
    (s : EncSt) : EncSt :=
  disp.foldl (flushOne gen) s

/-- The scatter/gather round loop of `write_stream_data`, fuelled (the Rust
loop is unbounded; with at least one worker the fuel `evs.length + 1` is
always sufficient, see `encodeLoop_clean`).  `none` models divergence. -/
def encodeLoop (gen : List Nat → List Bool × Nat) (nt : Nat) :
    Nat → List ReadEvent → EncSt → Option EncSt
  | 0, _, _ => none
  | fuel + 1, evs, s =>
      let r := scatterAux nt evs
      let s' := gatherSt gen r.2.1 s
      if r.2.2 then some s' else encodeLoop gen nt fuel r.1 s'

/-- The final state of the encode loop started from the zero CRC, empty
output and no dispatched blocks. -/
def encodeSt (gen : List Nat → List Bool × Nat) (nt : Nat)
    (evs : List ReadEvent) : Option EncSt :=
  encodeLoop gen nt (evs.length + 1) evs ⟨0, [], []⟩

/-- `file_header()`.  Modelled from the spec: the 3-byte signature
`B Z h` plus one version byte. -/
def file_header : List Bool := bitsOfBytes [66, 90, 104, 57]

/-- Big-endian bytes of a 32-bit value. -/
def bytesOfWord32 (w : Nat) : List Nat :=
  [w / 2 ^ 24 % 256, w / 2 ^ 16 % 256, w / 2 ^ 8 % 256, w % 256]

/-- `stream_footer(total_crc)`.  Modelled from the spec: the 6-byte
stream-end magic followed by the 32-bit combined checksum. -/
def stream_footer (crc : Nat) : List Bool :=
  bitsOfBytes footerMagic ++ bitsOfBytes (bytesOfWord32 crc)

/-- `BitWriter::finalize()`.  Modelled from the spec: pad the final partial
byte deterministically (with zero bits). -/
def padTo8 (l : List Bool) : List Bool :=
  l ++ List.replicate ((8 - l.length % 8) % 8) false

/-- `write_stream_data`: header, the gathered block bits, the footer with
the combined CRC, then the finalize padding. -/
def write_stream_data (gen : List Nat → List Bool × Nat) (nt : Nat)
    (evs : List ReadEvent) : Option (List Bool) :=
  (encodeSt gen nt evs).map
    (fun s => padTo8 (file_header ++ s.out ++ stream_footer s.crc))

/-! ## The decode entry point (from `stream.rs`) -/

/-- The loop of `write_stream`, fuelled (each iteration consumes the 48
marker bits, so `bits.length + 1` fuel always suffices).  `db` is the
external `decode_block`, which consumes bits from the reader (returning the
decoded bytes and the number of bits consumed — a reader only ever
advances) and writes the decoded bytes to the sink, which we thread as the
accumulated `sink` list.  Returns the final sink contents together with the
`Result` of the loop. -/
def decodeLoop (db : List Bool → Option (List Nat × Nat)) :
    Nat → List Bool → List Nat → List Nat × Except Unit Unit
  | 0, _, sink => (sink, Except.error ())
  | fuel + 1, bits, sink =>
    match what_next bits with
    | Except.error _ => (sink, Except.error ())
    | Except.ok (BlockType.StreamFooter, _) => (sink, Except.ok ())
    | Except.ok (BlockType.BlockHeader, rest) =>
      match db rest with
      | none => (sink, Except.error ())
      | some (bytes, consumed) =>
          decodeLoop db fuel (rest.drop consumed) (sink ++ bytes)

/-- `write_stream`: validate the file header, then loop on markers,
dispatching each block body to `decode_block`. -/
def write_stream (db : List Bool → Option (List Nat × Nat))
    (bits : List Bool) : List Nat × Except Unit Unit :=
  match read_file_header bits with
  | Except.error _ => ([], Except.error ())
  | Except.ok rest => decodeLoop db (rest.length + 1) rest []

/-- The contract of the external block codec pair, modelled from the spec:
`generate_block_data` emits the 6-byte block-start marker followed by the
block payload bits, and `decode_block`, run on the reader positioned right
after the marker, consumes exactly the payload and writes back the raw
block bytes.  (It quantifies only over byte sequences, i.e. lists of values
below 256, as produced by reading a Rust `u8` stream.) -/
def BlockCodecOk (gen : List Nat → List Bool × Nat)
    (db : List Bool → Option (List Nat × Nat)) : Prop :=
  ∀ b : List Nat, b ≠ [] → (∀ x ∈ b, x < 256) →
    ∃ p, (gen b).1 = bitsOfBytes blockMagic ++ p ∧
      ∀ rest, db (p ++ rest) = some (b, p.length)

/-! ## A concrete block codec satisfying the spec contract

Used to instantiate the codec-parameterized theorems on closed inputs. -/

/-- Payload of the toy block codec: the block length in unary (`n` one
bits and a terminating zero bit) followed by the block bytes. -/
def toyPayload (b : List Nat) : List Bool :=
  List.replicate b.length true ++ (false :: bitsOfBytes b)

/-- A toy `generate_block_data`: the block-start marker, the toy payload,
and a zero checksum. -/
def toyGen (b : List Nat) : List Bool × Nat :=
  (bitsOfBytes blockMagic ++ toyPayload b, 0)

/-- Count the leading one bits. -/
def countTrues : List Bool → Nat
  | true :: r => countTrues r + 1
  | _ => 0

/-- A toy `decode_block` inverting `toyGen`'s payload: read the unary
length, skip its terminator, read that many bytes. -/
def toyDb (bits : List Bool) : Option (List Nat × Nat) :=
  let n := countTrues bits
  match readBytes n (bits.drop (n + 1)) with
  | none => none
  | some (bs, _) => some (bs, (n + 1) + 8 * n)

/-! ## Bit-packing lemmas -/

theorem byteOfBits_bitsOfByte :
    ∀ b : Nat, b < 256 → byteOfBits (bitsOfByte b) = b := by
  decide

theorem bitsOfByte_length (b : Nat) : (bitsOfByte b).length = 8 := rfl

theorem bitsOfBytes_nil : bitsOfBytes [] = [] := rfl

theorem bitsOfBytes_cons (b : Nat) (bs : List Nat) :
    bitsOfBytes (b :: bs) = bitsOfByte b ++ bitsOfBytes bs := by
  simp [bitsOfBytes]

theorem bitsOfBytes_length (bs : List Nat) :
    (bitsOfBytes bs).length = 8 * bs.length := by
  induction bs with
  | nil => rfl
  | cons b bs ih =>
      rw [bitsOfBytes_cons]
      simp [bitsOfByte, ih]
      omega

theorem readBits8_bitsOfByte (b : Nat) (h : b < 256) (rest : List Bool) :
    readBits8 (bitsOfByte b ++ rest) = some (b, rest) := by
  show some (byteOfBits (bitsOfByte b), rest) = some (b, rest)
  rw [byteOfBits_bitsOfByte b h]

/-- Reading back exactly the bytes that were packed returns them and leaves
the trailing bits untouched. -/
theorem readBytes_bitsOfBytes (bs : List Nat) (h : ∀ x ∈ bs, x < 256)
    (rest : List Bool) :
    readBytes bs.length (bitsOfBytes bs ++ rest) = some (bs, rest) := by
  induction bs with
  | nil => rfl
  | cons b tl ih =>
      have hb : b < 256 := h b (by simp)
      have htl : ∀ x ∈ tl, x < 256 := fun x hx => h x (by simp [hx])
      rw [bitsOfBytes_cons, List.append_assoc]
      simp only [List.length_cons, readBytes, readBits8_bitsOfByte b hb,
        ih htl]

/-- A read of `n` bytes from a stream shorter than `8 * n` bits fails. -/
theorem readBytes_eq_none (n : Nat) (bits : List Bool)
    (h : bits.length < 8 * n) : readBytes n bits = none := by
  induction n generalizing bits with
  | zero => omega
  | succ n ih =>
      match bits, h with
      | b0 :: b1 :: b2 :: b3 :: b4 :: b5 :: b6 :: b7 :: rest, h =>
          have : rest.length < 8 * n := by simp at h; omega
          simp [readBytes, readBits8, ih rest this]
      | [], _ | [_], _ | [_,_], _ | [_,_,_], _ | [_,_,_,_], _
      | [_,_,_,_,_], _ | [_,_,_,_,_,_], _ | [_,_,_,_,_,_,_], _ =>
          simp [readBytes, readBits8]

/-! ## Chunking lemmas -/

theorem blockChunks_nil : blockChunks [] = [] := by rw [blockChunks]

theorem blockChunks_cons (x : Nat) (xs : List Nat) :
    blockChunks (x :: xs) =
      (x :: xs).take BLOCK_SIZE :: blockChunks ((x :: xs).drop BLOCK_SIZE) := by
  rw [blockChunks]

theorem blockChunks_of_ne_nil (l : List Nat) (h : l ≠ []) :
    blockChunks l = l.take BLOCK_SIZE :: blockChunks (l.drop BLOCK_SIZE) := by
  match l, h with
  | x :: xs, _ => exact blockChunks_cons x xs

/-- Every chunk is nonempty and at most `BLOCK_SIZE` long. -/
theorem blockChunks_mem (l : List Nat) :
    ∀ c ∈ blockChunks l, c ≠ [] ∧ c.length ≤ BLOCK_SIZE := by
  induction l using blockChunks.induct with
  | case1 => rw [blockChunks_nil]; intro c hc; cases hc
  | case2 x xs ih =>
      rw [blockChunks_cons]
      intro c hc
      rcases List.mem_cons.mp hc with h | h
      · subst h
        refine ⟨?_, ?_⟩
        · simp [BLOCK_SIZE]
        · simp
      · exact ih c h

/-- The chunks concatenate back to the input. -/
theorem blockChunks_flatten (l : List Nat) :
    (blockChunks l).flatten = l := by
  induction l using blockChunks.induct with
  | case1 => rw [blockChunks_nil]; rfl
  | case2 x xs ih =>
      rw [blockChunks_cons, List.flatten_cons, ih, List.take_append_drop]

/-- Chunk elements come from the input. -/
theorem blockChunks_subset (l : List Nat) :
    ∀ c ∈ blockChunks l, ∀ x ∈ c, x ∈ l := by
  intro c hc x hx
  rw [← blockChunks_flatten l]
  exact List.mem_flatten.mpr ⟨c, hc, hx⟩

/-! ## The CRC combination rule -/

theorem shiftRight31_lt (t : Nat) (h : t < 2 ^ 32) : t >>> 31 < 2 := by
  rw [Nat.shiftRight_eq_div_pow]
  omega

/-- The `u32` expression `(total << 1) | (total >> 31)` of
`flush_work_buffer` computes exactly the 32-bit left rotation. -/
theorem crcUpdate_eq_rotate (t c : Nat) (h : t < 2 ^ 32) :
    crcUpdate t c = c ^^^ rotateLeft32 t := by
  rw [crcUpdate, rotateLeft32]
  congr 1
  apply Nat.eq_of_testBit_eq
  intro i
  rw [Nat.testBit_or, Nat.testBit_mod_two_pow, Nat.testBit_mod_two_pow,
    Nat.testBit_or]
  by_cases hi : i < 32
  · simp [hi]
  · have h2 : t >>> 31 < 2 ^ i := by
      have := shiftRight31_lt t h
      have : (2 : Nat) ≤ 2 ^ i := by
        calc (2 : Nat) = 2 ^ 1 := rfl
        _ ≤ 2 ^ i := Nat.pow_le_pow_right (by omega) (by omega)
      omega
    simp [hi, Nat.testBit_lt_two_pow h2]

theorem crcUpdate_lt (t c : Nat) (ht : t < 2 ^ 32) (hc : c < 2 ^ 32) :
    crcUpdate t c < 2 ^ 32 := by
  rw [crcUpdate]
  apply Nat.xor_lt_two_pow hc
  apply Nat.or_lt_two_pow
  · exact Nat.mod_lt _ (by norm_num)
  · calc t >>> 31 < 2 := shiftRight31_lt t ht
      _ < 2 ^ 32 := by norm_num

/-- Folding the code's CRC update over a list of block checksums is the
spec's fold `f(acc, c) = c XOR rotateLeft32(acc, 1)`, as long as the
checksums are 32-bit values. -/
theorem foldl_crcUpdate_eq_spec (cs : List Nat) (hcs : ∀ c ∈ cs, c < 2 ^ 32) :
    ∀ a, a < 2 ^ 32 →
      List.foldl crcUpdate a cs =
        List.foldl (fun acc c => c ^^^ rotateLeft32 acc) a cs := by
  induction cs with
  | nil => intro a _; rfl
  | cons c cs ih =>
      intro a ha
      have hc : c < 2 ^ 32 := hcs c (by simp)
      show List.foldl crcUpdate (crcUpdate a c) cs = _
      rw [ih (fun x hx => hcs x (by simp [hx])) _ (crcUpdate_lt a c ha hc),
        crcUpdate_eq_rotate a c ha]
      rfl

/-! ## Scatter/gather characterization on a clean event stream -/

theorem scatterAux_clean (n : Nat) (l : List (List Nat))
    (hl : ∀ c ∈ l, c ≠ []) :
    scatterAux n (l.map Except.ok) =
      if l.length < n then ([], l, true)
      else ((l.drop n).map Except.ok, l.take n, false) := by
  induction n generalizing l with
  | zero => simp [scatterAux]
  | succ n ih =>
      match l with
      | [] => simp [scatterAux]
      | c :: cs =>
          have hc : c ≠ [] := hl c (by simp)
          match c, hc with
          | b :: bs, _ =>
              have hcs : ∀ c ∈ cs, c ≠ [] := fun c h => hl c (by simp [h])
              simp only [List.map_cons, scatterAux, ih cs hcs]
              by_cases h : cs.length < n
              · rw [if_pos h, if_pos (by simp; omega)]
              · rw [if_neg h, if_neg (by simp; omega)]
                simp

theorem gatherSt_spec (gen : List Nat → List Bool × Nat)
    (disp : List (List Nat)) (s : EncSt) :
    gatherSt gen disp s =
      ⟨List.foldl crcUpdate s.crc (disp.map (fun b => (gen b).2)),
       s.out ++ (disp.map (fun b => (gen b).1)).flatten,
       s.blocks ++ disp⟩ := by
  induction disp generalizing s with
  | nil => simp [gatherSt]
  | cons d ds ih =>
      show gatherSt gen ds (flushOne gen s d) = _
      rw [ih]
      simp [flushOne]

theorem gatherSt_append (gen : List Nat → List Bool × Nat)
    (l₁ l₂ : List (List Nat)) (s : EncSt) :
    gatherSt gen l₂ (gatherSt gen l₁ s) = gatherSt gen (l₁ ++ l₂) s := by
  rw [gatherSt, gatherSt, gatherSt, List.foldl_append]

/-- With at least one worker and a clean event stream, the round loop
terminates within the fuel and gathers every chunk in order. -/
theorem encodeLoop_clean (gen : List Nat → List Bool × Nat) (nt : Nat)
    (hnt : 1 ≤ nt) :
    ∀ (fuel : Nat) (l : List (List Nat)) (s : EncSt),
      (∀ c ∈ l, c ≠ []) → l.length < fuel →
      encodeLoop gen nt fuel (l.map Except.ok) s = some (gatherSt gen l s) := by
  intro fuel
  induction fuel with
  | zero => intro l s _ h; omega
  | succ fuel ih =>
      intro l s hl hlen
      show (let r := scatterAux nt (l.map Except.ok);
            let s' := gatherSt gen r.2.1 s;
            if r.2.2 then some s' else encodeLoop gen nt fuel r.1 s') = _
      rw [scatterAux_clean nt l hl]
      by_cases h : l.length < nt
      · rw [if_pos h]; rfl
      · rw [if_neg h]
        show encodeLoop gen nt fuel ((l.drop nt).map Except.ok)
              (gatherSt gen (l.take nt) s) = _
        rw [ih (l.drop nt) (gatherSt gen (l.take nt) s)
              (fun c hc => hl c (List.drop_subset nt l hc))
              (by simp; omega),
            gatherSt_append, List.take_append_drop]

/-- The net effect of `write_stream_data`'s loop on a pure byte source:
every `BLOCK_SIZE` chunk of the input is dispatched and gathered, in input
order. -/
theorem encodeSt_clean (gen : List Nat → List Bool × Nat) (nt : Nat)
    (hnt : 1 ≤ nt) (input : List Nat) :
    encodeSt gen nt (eventsOfInput input) =
      some (gatherSt gen (blockChunks input) ⟨0, [], []⟩) := by
  rw [encodeSt, eventsOfInput]
  exact encodeLoop_clean gen nt hnt _ (blockChunks input) _
    (fun c hc => (blockChunks_mem input c hc).1) (by simp)

/-! ## Decoder lemmas -/

/-- `what_next` on a stream starting with any 6 packed bytes: the decision
depends only on those 6 bytes, and the reader is left exactly past them. -/
theorem what_next_spec (b6 : List Nat) (hlen : b6.length = 6)
    (hb : ∀ x ∈ b6, x < 256) (rest : List Bool) :
    what_next (bitsOfBytes b6 ++ rest) =
      if b6 = blockMagic then Except.ok (BlockType.BlockHeader, rest)
      else if b6 = footerMagic then Except.ok (BlockType.StreamFooter, rest)
      else Except.error () := by
  rw [what_next, show (6 : Nat) = b6.length from hlen.symm,
    readBytes_bitsOfBytes b6 hb rest]

theorem what_next_block (rest : List Bool) :
    what_next (bitsOfBytes blockMagic ++ rest) =
      Except.ok (BlockType.BlockHeader, rest) := by
  rw [what_next_spec blockMagic (by decide) (by decide) rest, if_pos rfl]

theorem what_next_footer (rest : List Bool) :
    what_next (bitsOfBytes footerMagic ++ rest) =
      Except.ok (BlockType.StreamFooter, rest) := by
  rw [what_next_spec footerMagic (by decide) (by decide) rest,
    if_neg (by decide), if_pos rfl]

/-- `what_next` fails on a stream of fewer than 48 bits. -/
theorem what_next_short (bits : List Bool) (h : bits.length < 48) :
    what_next bits = Except.error () := by
  rw [what_next, readBytes_eq_none 6 bits (by omega)]

/-- `read_file_header` on a stream starting with any 4 packed bytes:
success exactly when the first three bytes are `B Z h`, the version byte is
arbitrary, and on success the reader is left exactly past the 4 bytes. -/
theorem read_file_header_spec (b0 b1 b2 v : Nat)
    (h0 : b0 < 256) (h1 : b1 < 256) (h2 : b2 < 256) (hv : v < 256)
    (rest : List Bool) :
    read_file_header (bitsOfBytes [b0, b1, b2, v] ++ rest) =
      if b0 = 66 ∧ b1 = 90 ∧ b2 = 104 then Except.ok rest
      else Except.error () := by
  rw [read_file_header,
    show (4 : Nat) = ([b0, b1, b2, v] : List Nat).length from rfl,
    readBytes_bitsOfBytes [b0, b1, b2, v] (by simp; omega) rest]

/-- `read_file_header` fails on a stream of fewer than 32 bits. -/
theorem read_file_header_short (bits : List Bool) (h : bits.length < 32) :
    read_file_header bits = Except.error () := by
  rw [read_file_header, readBytes_eq_none 4 bits (by omega)]

/-- Unfolding of one iteration of the marker loop. -/
theorem decodeLoop_succ (db : List Bool → Option (List Nat × Nat))
    (f : Nat) (bits : List Bool) (sink : List Nat) :
    decodeLoop db (f + 1) bits sink =
      match what_next bits with
      | Except.error _ => (sink, Except.error ())
      | Except.ok (BlockType.StreamFooter, _) => (sink, Except.ok ())
      | Except.ok (BlockType.BlockHeader, rest) =>
        match db rest with
        | none => (sink, Except.error ())
        | some (bytes, consumed) =>
            decodeLoop db f (rest.drop consumed) (sink ++ bytes) := rfl

/-- Walking the marker loop over well-formed encoded blocks followed by the
stream-end magic decodes every block, in order, and terminates cleanly. -/
theorem decodeLoop_roundtrip (gen : List Nat → List Bool × Nat)
    (db : List Bool → Option (List Nat × Nat)) (hc : BlockCodecOk gen db)
    (l : List (List Nat)) (hl : ∀ b ∈ l, b ≠ [] ∧ ∀ x ∈ b, x < 256) :
    ∀ (fuel : Nat) (sink : List Nat) (tail : List Bool), l.length < fuel →
      decodeLoop db fuel
          ((l.map (fun b => (gen b).1)).flatten ++ (bitsOfBytes footerMagic ++ tail))
          sink =
        (sink ++ l.flatten, Except.ok ()) := by
  induction l with
  | nil =>
      intro fuel sink tail hfuel
      match fuel, hfuel with
      | f + 1, _ =>
          rw [decodeLoop_succ]
          simp only [List.map_nil, List.flatten_nil, List.nil_append]
          rw [what_next_footer tail]
          simp
  | cons b bs ih =>
      intro fuel sink tail hfuel
      obtain ⟨p, hgen, hdb⟩ := hc b (hl b (by simp)).1 (hl b (by simp)).2
      match fuel, hfuel with
      | f + 1, hf =>
          rw [decodeLoop_succ, List.map_cons, List.flatten_cons, hgen]
          simp only [List.append_assoc]
          rw [what_next_block]
          simp only [hdb, List.drop_left]
          rw [ih (fun x hx => hl x (by simp [hx])) f (sink ++ b) tail
              (by simp at hf ⊢; omega)]
          simp

/-! ## Top-level shape of the encoded stream, and the round trip -/

/-- The concrete stream `write_stream_data` emits on a pure byte source
with at least one worker: header, then the compressed bits of every
`BLOCK_SIZE` chunk in input order, then the footer with the folded CRC,
then the finalize padding. -/
theorem write_stream_data_clean (gen : List Nat → List Bool × Nat)
    (nt : Nat) (hnt : 1 ≤ nt) (input : List Nat) :
    write_stream_data gen nt (eventsOfInput input) =
      some (padTo8 (file_header ++
        ((blockChunks input).map (fun b => (gen b).1)).flatten ++
        stream_footer
          (List.foldl crcUpdate 0
            ((blockChunks input).map (fun b => (gen b).2))))) := by
  rw [write_stream_data, encodeSt_clean gen nt hnt input, gatherSt_spec]
  simp

theorem read_file_header_good (rest : List Bool) :
    read_file_header (bitsOfBytes [66, 90, 104, 57] ++ rest) =
      Except.ok rest := by
  rw [read_file_header_spec 66 90 104 57 (by omega) (by omega) (by omega)
    (by omega) rest]
  simp

theorem length_le_flatten_map {α β : Type} (l : List α) (f : α → List β)
    (h : ∀ x ∈ l, f x ≠ []) : l.length ≤ (l.map f).flatten.length := by
  induction l with
  | nil => simp
  | cons a l ih =>
      have ha : (f a).length ≥ 1 :=
        List.length_pos.mpr (h a (by simp))
      have : l.length ≤ (l.map f).flatten.length :=
        ih (fun x hx => h x (by simp [hx]))
      simp only [List.map_cons, List.flatten_cons, List.length_append,
        List.length_cons]
      omega

/-- `write_stream` on a stream consisting of the file header, well-formed
encoded blocks, the stream-end magic and anything after it decodes exactly
the blocks' bytes and succeeds. -/
theorem write_stream_blocks (gen : List Nat → List Bool × Nat)
    (db : List Bool → Option (List Nat × Nat)) (hc : BlockCodecOk gen db)
    (l : List (List Nat)) (hl : ∀ b ∈ l, b ≠ [] ∧ ∀ x ∈ b, x < 256)
    (tail : List Bool) :
    write_stream db
        (bitsOfBytes [66, 90, 104, 57] ++
          ((l.map (fun b => (gen b).1)).flatten ++
            (bitsOfBytes footerMagic ++ tail))) =
      (l.flatten, Except.ok ()) := by
  have hb48 : ∀ b ∈ l, (gen b).1 ≠ [] := by
    intro b hb
    obtain ⟨p, hgen, _⟩ := hc b (hl b hb).1 (hl b hb).2
    rw [hgen]
    simp [bitsOfBytes, blockMagic, bitsOfByte]
  have hlen := length_le_flatten_map l (fun b => (gen b).1) hb48
  rw [write_stream, read_file_header_good]
  simp only []
  have h := decodeLoop_roundtrip gen db hc l hl
    (((l.map (fun b => (gen b).1)).flatten ++
      (bitsOfBytes footerMagic ++ tail)).length + 1) [] tail
    (by simp only [List.length_append]; omega)
  rw [List.nil_append] at h
  exact h

/-- As `write_stream_blocks`, but with the `finalize` padding of the bit
writer appended, as `write_stream_data` produces it. -/
theorem write_stream_padded (gen : List Nat → List Bool × Nat)
    (db : List Bool → Option (List Nat × Nat)) (hc : BlockCodecOk gen db)
    (l : List (List Nat)) (hl : ∀ b ∈ l, b ≠ [] ∧ ∀ x ∈ b, x < 256)
    (tail : List Bool) :
    write_stream db
        (padTo8 (file_header ++ (l.map (fun b => (gen b).1)).flatten ++
          (bitsOfBytes footerMagic ++ tail))) =
      (l.flatten, Except.ok ()) := by
  rw [padTo8, file_header]
  simp only [List.append_assoc]
  exact write_stream_blocks gen db hc l hl (tail ++ List.replicate _ false)

/-- C3: decoding the stream produced by encoding any byte sequence `b`
(including the empty one) with any worker count `k ∈ {1, 2, 4, 8}` yields
exactly `b`: `decode(encode(b, worker_count=k)) = b`, for any block codec
satisfying the spec's contract. -/
theorem claim_C3_roundtrip (gen : List Nat → List Bool × Nat)
    (db : List Bool → Option (List Nat × Nat)) (hc : BlockCodecOk gen db)
    (k : Nat) (hk : k = 1 ∨ k = 2 ∨ k = 4 ∨ k = 8) (input : List Nat)
    (hin : ∀ x ∈ input, x < 256) :
    ∃ s, write_stream_data gen k (eventsOfInput input) = some s ∧
      write_stream db s = (input, Except.ok ()) := by
  have hk1 : 1 ≤ k := by rcases hk with h | h | h | h <;> omega
  refine ⟨_, write_stream_data_clean gen k hk1 input, ?_⟩
  have hl : ∀ b ∈ blockChunks input, b ≠ [] ∧ ∀ x ∈ b, x < 256 :=
    fun b hb => ⟨(blockChunks_mem input b hb).1,
      fun x hx => hin x (blockChunks_subset input b hb x hx)⟩
  rw [stream_footer]
  exact (write_stream_padded gen db hc (blockChunks input) hl
      (bitsOfBytes (bytesOfWord32 (List.foldl crcUpdate 0
        ((blockChunks input).map (fun b => (gen b).2)))))).trans
    (by rw [blockChunks_flatten])

theorem countTrues_replicate (n : Nat) (t : List Bool) :
    countTrues (List.replicate n true ++ (false :: t)) = n := by
  induction n with
  | zero => rfl
  | succ n ih =>
      show countTrues (true :: (List.replicate n true ++ (false :: t))) = n + 1
      rw [show countTrues (true :: (List.replicate n true ++ (false :: t))) =
        countTrues (List.replicate n true ++ (false :: t)) + 1 from rfl, ih]

theorem drop_replicate_cons (n : Nat) (t : List Bool) :
    (List.replicate n true ++ (false :: t)).drop (n + 1) = t := by
  rw [show List.replicate n true ++ (false :: t) =
    (List.replicate n true ++ [false]) ++ t by simp]
  apply List.drop_left'
  simp

/-- `toyDb` decodes any `toyPayload`, whatever follows it, consuming
exactly the payload. -/
theorem toyDb_toyPayload (b : List Nat) (hb : ∀ x ∈ b, x < 256)
    (rest : List Bool) :
    toyDb (toyPayload b ++ rest) = some (b, (toyPayload b).length) := by
  have hplen : (toyPayload b).length = (b.length + 1) + 8 * b.length := by
    simp [toyPayload, bitsOfBytes_length]
    omega
  have hshape : toyPayload b ++ rest =
      List.replicate b.length true ++ (false :: (bitsOfBytes b ++ rest)) := by
    rw [toyPayload, List.append_assoc]
    rfl
  show (match readBytes (countTrues (toyPayload b ++ rest))
          ((toyPayload b ++ rest).drop (countTrues (toyPayload b ++ rest) + 1)) with
        | none => none
        | some (bs, _) =>
            some (bs, (countTrues (toyPayload b ++ rest) + 1) +
              8 * countTrues (toyPayload b ++ rest))) =
      some (b, (toyPayload b).length)
  rw [hshape, countTrues_replicate, drop_replicate_cons,
    show readBytes b.length (bitsOfBytes b ++ rest) = some (b, rest) from
      readBytes_bitsOfBytes b hb rest, hplen]

theorem toy_codec_ok : BlockCodecOk toyGen toyDb := by
  intro b _ hb
  exact ⟨toyPayload b, rfl, toyDb_toyPayload b hb⟩

/-! ## The claims -/

/-- C1: over a stream of blocks with checksums `c1 … cn` in write order,
the running CRC starts at 0, is updated once per block by
`combined' = c XOR rotateLeft32(combined, 1)` (the code's
`(total << 1) | (total >> 31)` on `u32`), and the footer carries the final
fold `f(…f(f(0,c1),c2)…,cn)` with `f(acc,c) = c ^^^ rotateLeft32 acc`. -/
theorem claim_C1_crc_fold (gen : List Nat → List Bool × Nat)
    (hgen : ∀ b, (gen b).2 < 2 ^ 32) (nt : Nat) (hnt : 1 ≤ nt)
    (input : List Nat) :
    (encodeSt gen nt (eventsOfInput input)).map EncSt.crc =
      some (List.foldl (fun acc c => c ^^^ rotateLeft32 acc) 0
        ((blockChunks input).map (fun b => (gen b).2))) ∧
    write_stream_data gen nt (eventsOfInput input) =
      some (padTo8 (file_header ++
        ((blockChunks input).map (fun b => (gen b).1)).flatten ++
        stream_footer (List.foldl (fun acc c => c ^^^ rotateLeft32 acc) 0
          ((blockChunks input).map (fun b => (gen b).2))))) := by
  have hfold :
      List.foldl crcUpdate 0 ((blockChunks input).map (fun b => (gen b).2)) =
        List.foldl (fun acc c => c ^^^ rotateLeft32 acc) 0
          ((blockChunks input).map (fun b => (gen b).2)) := by
    refine foldl_crcUpdate_eq_spec _ ?_ 0 (by positivity)
    intro c hc
    obtain ⟨b, _, rfl⟩ := List.mem_map.mp hc
    exact hgen b
  constructor
  · rw [encodeSt_clean gen nt hnt input, gatherSt_spec]
    simp only [Option.map_some']
    rw [← hfold]
  · rw [write_stream_data_clean gen nt hnt input, hfold]

theorem claim_C1_crc_fold_witness :
    (∀ b : List Nat, (toyGen b).2 < 2 ^ 32) ∧ 1 ≤ 1 ∧
    ((encodeSt toyGen 1 (eventsOfInput [2, 3])).map EncSt.crc =
      some (List.foldl (fun acc c => c ^^^ rotateLeft32 acc) 0
        ((blockChunks [2, 3]).map (fun b => (toyGen b).2))) ∧
    write_stream_data toyGen 1 (eventsOfInput [2, 3]) =
      some (padTo8 (file_header ++
        ((blockChunks [2, 3]).map (fun b => (toyGen b).1)).flatten ++
        stream_footer (List.foldl (fun acc c => c ^^^ rotateLeft32 acc) 0
          ((blockChunks [2, 3]).map (fun b => (toyGen b).2)))))) :=
  ⟨fun b => by simp [toyGen], le_refl 1,
    claim_C1_crc_fold toyGen (fun b => by simp [toyGen]) 1 (le_refl 1) [2, 3]⟩

/-- C2: for every input and every worker count (at least one worker), the
blocks dispatched equal the chunks read from the input, in read order, and
the output bits are the concatenation of the per-block compressed bits in
exactly that order — one compressed block written per raw block read. -/
theorem claim_C2_block_order (gen : List Nat → List Bool × Nat) (nt : Nat)
    (hnt : 1 ≤ nt) (input : List Nat) :
    ∃ s, encodeSt gen nt (eventsOfInput input) = some s ∧
      s.blocks = blockChunks input ∧
      s.out = ((blockChunks input).map (fun b => (gen b).1)).flatten := by
  rw [encodeSt_clean gen nt hnt input, gatherSt_spec]
  exact ⟨_, rfl, by simp, by simp⟩

theorem claim_C2_block_order_witness :
    1 ≤ 2 ∧
    ∃ s, encodeSt toyGen 2 (eventsOfInput [7, 7, 7]) = some s ∧
      s.blocks = blockChunks [7, 7, 7] ∧
      s.out = ((blockChunks [7, 7, 7]).map (fun b => (toyGen b).1)).flatten :=
  ⟨by omega, claim_C2_block_order toyGen 2 (by omega) [7, 7, 7]⟩

/-- C6: the encoder chunks its input into raw blocks of at most
`BLOCK_SIZE = 720000` bytes: every chunk has length in `[1, BLOCK_SIZE]`,
an input of exactly `BLOCK_SIZE` bytes gives one chunk, an input of
`BLOCK_SIZE + 1` bytes gives two chunks with the second of length 1, and
the dispatched blocks are exactly these chunks. -/
theorem claim_C6_chunking (gen : List Nat → List Bool × Nat) (nt : Nat)
    (hnt : 1 ≤ nt) (input : List Nat) :
    (∀ c ∈ blockChunks input, 1 ≤ c.length ∧ c.length ≤ BLOCK_SIZE) ∧
    (input.length = BLOCK_SIZE → blockChunks input = [input]) ∧
    (input.length = BLOCK_SIZE + 1 →
      blockChunks input = [input.take BLOCK_SIZE, input.drop BLOCK_SIZE] ∧
      (input.take BLOCK_SIZE).length = BLOCK_SIZE ∧
      (input.drop BLOCK_SIZE).length = 1) ∧
    (encodeSt gen nt (eventsOfInput input)).map EncSt.blocks =
      some (blockChunks input) := by
  refine ⟨?_, ?_, ?_, ?_⟩
  · intro c hc
    have h := blockChunks_mem input c hc
    exact ⟨List.length_pos.mpr h.1, h.2⟩
  · intro hlen
    have hne : input ≠ [] := by
      intro h
      rw [h] at hlen
      simp [BLOCK_SIZE] at hlen
    rw [blockChunks_of_ne_nil input hne, List.take_of_length_le (by omega),
      List.drop_eq_nil_of_le (by omega), blockChunks_nil]
  · intro hlen
    have hne : input ≠ [] := by
      intro h
      rw [h] at hlen
      simp [BLOCK_SIZE] at hlen
    have hd1 : (input.drop BLOCK_SIZE).length = 1 := by
      simp
      omega
    have hdne : input.drop BLOCK_SIZE ≠ [] := by
      intro h
      rw [h] at hd1
      simp at hd1
    refine ⟨?_, by simp; omega, hd1⟩
    have hle : (input.drop BLOCK_SIZE).length ≤ BLOCK_SIZE := by
      rw [hd1]
      norm_num [BLOCK_SIZE]
    rw [blockChunks_of_ne_nil input hne, blockChunks_of_ne_nil _ hdne,
      List.take_of_length_le hle, List.drop_eq_nil_of_le hle,
      blockChunks_nil]
  · rw [encodeSt_clean gen nt hnt input, gatherSt_spec]
    simp

theorem claim_C6_chunking_witness :
    1 ≤ 1 ∧
    ((∀ c ∈ blockChunks (List.replicate (BLOCK_SIZE + 1) 0),
        1 ≤ c.length ∧ c.length ≤ BLOCK_SIZE) ∧
    ((List.replicate (BLOCK_SIZE + 1) 0).length = BLOCK_SIZE →
      blockChunks (List.replicate (BLOCK_SIZE + 1) 0) =
        [List.replicate (BLOCK_SIZE + 1) 0]) ∧
    ((List.replicate (BLOCK_SIZE + 1) 0).length = BLOCK_SIZE + 1 →
      blockChunks (List.replicate (BLOCK_SIZE + 1) 0) =
        [(List.replicate (BLOCK_SIZE + 1) 0).take BLOCK_SIZE,
         (List.replicate (BLOCK_SIZE + 1) 0).drop BLOCK_SIZE] ∧
      ((List.replicate (BLOCK_SIZE + 1) 0).take BLOCK_SIZE).length = BLOCK_SIZE ∧
      ((List.replicate (BLOCK_SIZE + 1) 0).drop BLOCK_SIZE).length = 1) ∧
    (encodeSt toyGen 1 (eventsOfInput (List.replicate (BLOCK_SIZE + 1) 0))).map
        EncSt.blocks =
      some (blockChunks (List.replicate (BLOCK_SIZE + 1) 0))) :=
  ⟨le_refl 1, claim_C6_chunking toyGen 1 (le_refl 1) _⟩

/-- C8: the encoded stream — hence its decoded content and its footer
CombinedChecksum — is identical whatever the worker count: one worker and
`k` workers produce streams that decode identically and carry the same
checksum. -/
theorem claim_C8_worker_count_independence (gen : List Nat → List Bool × Nat)
    (j k : Nat) (hj : 1 ≤ j) (hk : 1 ≤ k) (input : List Nat) :
    write_stream_data gen j (eventsOfInput input) =
      write_stream_data gen k (eventsOfInput input) ∧
    (encodeSt gen j (eventsOfInput input)).map EncSt.crc =
      (encodeSt gen k (eventsOfInput input)).map EncSt.crc ∧
    ∀ (db : List Bool → Option (List Nat × Nat)) (s t : List Bool),
      write_stream_data gen j (eventsOfInput input) = some s →
      write_stream_data gen k (eventsOfInput input) = some t →
      write_stream db s = write_stream db t := by
  have h1 : write_stream_data gen j (eventsOfInput input) =
      write_stream_data gen k (eventsOfInput input) := by
    rw [write_stream_data_clean gen j hj input,
      write_stream_data_clean gen k hk input]
  refine ⟨h1, ?_, ?_⟩
  · rw [encodeSt_clean gen j hj input, encodeSt_clean gen k hk input]
  · intro db s t hs ht
    have hst : s = t := by
      rw [hs, ht] at h1
      exact Option.some.inj h1
    rw [hst]

theorem claim_C8_worker_count_independence_witness :
    1 ≤ 1 ∧ 1 ≤ 4 ∧
    (write_stream_data toyGen 1 (eventsOfInput [9]) =
      write_stream_data toyGen 4 (eventsOfInput [9]) ∧
    (encodeSt toyGen 1 (eventsOfInput [9])).map EncSt.crc =
      (encodeSt toyGen 4 (eventsOfInput [9])).map EncSt.crc ∧
    ∀ (db : List Bool → Option (List Nat × Nat)) (s t : List Bool),
      write_stream_data toyGen 1 (eventsOfInput [9]) = some s →
      write_stream_data toyGen 4 (eventsOfInput [9]) = some t →
      write_stream db s = write_stream db t) :=
  ⟨le_refl 1, by omega,
    claim_C8_worker_count_independence toyGen 1 4 (le_refl 1) (by omega) [9]⟩

theorem claim_C3_roundtrip_witness :
    BlockCodecOk toyGen toyDb ∧
    ((2 : Nat) = 1 ∨ (2 : Nat) = 2 ∨ (2 : Nat) = 4 ∨ (2 : Nat) = 8) ∧
    (∀ x ∈ ([5, 200] : List Nat), x < 256) ∧
    ∃ s, write_stream_data toyGen 2 (eventsOfInput [5, 200]) = some s ∧
      write_stream toyDb s = ([5, 200], Except.ok ()) :=
  ⟨toy_codec_ok, Or.inr (Or.inl rfl), by decide,
    claim_C3_roundtrip toyGen toyDb toy_codec_ok 2 (Or.inr (Or.inl rfl))
      [5, 200] (by decide)⟩

/-- C4: the marker dispatch reads exactly 6 bytes; the block-start magic
yields `BlockHeader`, the stream-end magic yields `StreamFooter`, any
other 6 bytes yield a format error, and the decision is independent of the
bits that follow. -/
theorem claim_C4_marker_dispatch (b6 : List Nat) (hlen : b6.length = 6)
    (hb : ∀ x ∈ b6, x < 256) (rest rest2 : List Bool) :
    (what_next (bitsOfBytes b6 ++ rest) =
        Except.ok (BlockType.BlockHeader, rest) ↔ b6 = blockMagic) ∧
    (what_next (bitsOfBytes b6 ++ rest) =
        Except.ok (BlockType.StreamFooter, rest) ↔ b6 = footerMagic) ∧
    (what_next (bitsOfBytes b6 ++ rest) = Except.error () ↔
      b6 ≠ blockMagic ∧ b6 ≠ footerMagic) ∧
    (what_next (bitsOfBytes b6 ++ rest)).map Prod.fst =
      (what_next (bitsOfBytes b6 ++ rest2)).map Prod.fst := by
  rw [what_next_spec b6 hlen hb rest, what_next_spec b6 hlen hb rest2]
  by_cases h1 : b6 = blockMagic
  · subst h1
    have h2 : ¬(blockMagic = footerMagic) := by decide
    simp [h2]
    rfl
  · by_cases h2 : b6 = footerMagic
    · subst h2
      simp [h1]
      rfl
    · simp [h1, h2]

theorem claim_C4_marker_dispatch_witness :
    blockMagic.length = 6 ∧ (∀ x ∈ blockMagic, x < 256) ∧
    ((what_next (bitsOfBytes blockMagic ++ []) =
        Except.ok (BlockType.BlockHeader, []) ↔ blockMagic = blockMagic) ∧
    (what_next (bitsOfBytes blockMagic ++ []) =
        Except.ok (BlockType.StreamFooter, []) ↔ blockMagic = footerMagic) ∧
    (what_next (bitsOfBytes blockMagic ++ []) = Except.error () ↔
      blockMagic ≠ blockMagic ∧ blockMagic ≠ footerMagic) ∧
    (what_next (bitsOfBytes blockMagic ++ [])).map Prod.fst =
      (what_next (bitsOfBytes blockMagic ++ [false])).map Prod.fst) :=
  ⟨by decide, by decide,
    claim_C4_marker_dispatch blockMagic (by decide) (by decide) [] [false]⟩

/-- C5: the header validation reads exactly 4 bytes and succeeds exactly
when the first 3 are `B Z h` (the 4th is arbitrary); on any other first 3
bytes it is a format error, the decode call aborts immediately and no
bytes are decoded to the output. -/
theorem claim_C5_header_validation (db : List Bool → Option (List Nat × Nat))
    (b0 b1 b2 v : Nat) (h0 : b0 < 256) (h1 : b1 < 256) (h2 : b2 < 256)
    (hv : v < 256) (rest : List Bool) :
    (read_file_header (bitsOfBytes [b0, b1, b2, v] ++ rest) = Except.ok rest ↔
      b0 = 66 ∧ b1 = 90 ∧ b2 = 104) ∧
    (¬(b0 = 66 ∧ b1 = 90 ∧ b2 = 104) →
      read_file_header (bitsOfBytes [b0, b1, b2, v] ++ rest) =
        Except.error () ∧
      write_stream db (bitsOfBytes [b0, b1, b2, v] ++ rest) =
        ([], Except.error ())) := by
  constructor
  · rw [read_file_header_spec b0 b1 b2 v h0 h1 h2 hv rest]
    by_cases h : b0 = 66 ∧ b1 = 90 ∧ b2 = 104
    · simp [h]
    · simp [h]
  · intro h
    constructor
    · rw [read_file_header_spec b0 b1 b2 v h0 h1 h2 hv rest, if_neg h]
    · rw [write_stream, read_file_header_spec b0 b1 b2 v h0 h1 h2 hv rest,
        if_neg h]

theorem claim_C5_header_validation_witness :
    (65 : Nat) < 256 ∧ (90 : Nat) < 256 ∧ (104 : Nat) < 256 ∧
    (57 : Nat) < 256 ∧
    ((read_file_header (bitsOfBytes [65, 90, 104, 57] ++ []) =
        Except.ok [] ↔ (65 : Nat) = 66 ∧ (90 : Nat) = 90 ∧ (104 : Nat) = 104) ∧
    (¬((65 : Nat) = 66 ∧ (90 : Nat) = 90 ∧ (104 : Nat) = 104) →
      read_file_header (bitsOfBytes [65, 90, 104, 57] ++ []) =
        Except.error () ∧
      write_stream toyDb (bitsOfBytes [65, 90, 104, 57] ++ []) =
        ([], Except.error ()))) :=
  ⟨by omega, by omega, by omega, by omega,
    claim_C5_header_validation toyDb 65 90 104 57 (by omega) (by omega)
      (by omega) (by omega) []⟩

/-- C9: a bit source exhausted before a complete 4-byte header, or before
a complete 6-byte marker at any marker step, makes the decode fail: the
entry point returns an error (with an empty sink), and the marker loop
errors from any state on a short stream. -/
theorem claim_C9_truncated (db : List Bool → Option (List Nat × Nat))
    (bits marker rest : List Bool) (sink : List Nat) (f : Nat)
    (h32 : bits.length < 32) (h48 : marker.length < 48)
    (hrest : rest.length < 48) :
    write_stream db bits = ([], Except.error ()) ∧
    decodeLoop db (f + 1) marker sink = (sink, Except.error ()) ∧
    write_stream db (bitsOfBytes [66, 90, 104, 57] ++ rest) =
      ([], Except.error ()) := by
  refine ⟨?_, ?_, ?_⟩
  · rw [write_stream, read_file_header_short bits h32]
  · rw [decodeLoop_succ, what_next_short marker h48]
  · rw [write_stream, read_file_header_good]
    simp only []
    rw [decodeLoop_succ, what_next_short rest hrest]

theorem claim_C9_truncated_witness :
    ([] : List Bool).length < 32 ∧ ([] : List Bool).length < 48 ∧
    ([false] : List Bool).length < 48 ∧
    (write_stream toyDb [] = ([], Except.error ()) ∧
    decodeLoop toyDb (0 + 1) [] [] = ([], Except.error ()) ∧
    write_stream toyDb (bitsOfBytes [66, 90, 104, 57] ++ [false]) =
      ([], Except.error ())) :=
  ⟨by decide, by decide, by decide,
    claim_C9_truncated toyDb [] [] [false] [] 0 (by decide) (by decide)
      (by decide)⟩

/-- An I/O error event stops the scatter loop early: the workers from the
erroring read onwards receive nothing, and `finalize` is not set. -/
theorem scatterAux_error (good : List (List Nat)) (nt : Nat)
    (hgood : ∀ c ∈ good, c ≠ []) (hlt : good.length < nt)
    (evs : List ReadEvent) :
    scatterAux nt (good.map Except.ok ++ (Except.error () :: evs)) =
      (evs, good, false) := by
  induction good generalizing nt with
  | nil =>
      match nt, hlt with
      | m + 1, _ => rfl
  | cons c cs ih =>
      match nt, hlt with
      | m + 1, hlt =>
          have hc : c ≠ [] := hgood c (by simp)
          match c, hc with
          | b :: bs, _ =>
              show (let r := scatterAux m
                      (cs.map Except.ok ++ (Except.error () :: evs));
                    (r.1, (b :: bs) :: r.2.1, r.2.2)) =
                (evs, (b :: bs) :: cs, false)
              rw [ih m (fun x hx => hgood x (by simp [hx]))
                (by simp at hlt ⊢; omega)]

/-- C7: an I/O error while reading during scatter (as opposed to a clean
zero-byte end-of-input) stops sending work to the remaining workers of the
round but does not set the `finalize` flag, so after that round's gather
the outer loop proceeds to attempt further rounds. -/
theorem claim_C7_read_error_continues (gen : List Nat → List Bool × Nat)
    (nt f : Nat) (good : List (List Nat)) (hgood : ∀ c ∈ good, c ≠ [])
    (hlt : good.length < nt) (evs : List ReadEvent) (st : EncSt) :
    (∀ (n : Nat) (evs2 : List ReadEvent),
      scatterAux (n + 1) (Except.error () :: evs2) = (evs2, [], false)) ∧
    scatterAux nt (good.map Except.ok ++ (Except.error () :: evs)) =
      (evs, good, false) ∧
    encodeLoop gen nt (f + 1) (good.map Except.ok ++ (Except.error () :: evs))
        st =
      encodeLoop gen nt f evs (gatherSt gen good st) := by
  have hs := scatterAux_error good nt hgood hlt evs
  refine ⟨fun n evs2 => rfl, hs, ?_⟩
  show (let r := scatterAux nt (good.map Except.ok ++ (Except.error () :: evs));
        let s' := gatherSt gen r.2.1 st;
        if r.2.2 then some s' else encodeLoop gen nt f r.1 s') = _
  rw [hs]
  rfl

theorem claim_C7_read_error_continues_witness :
    (∀ c ∈ ([[3]] : List (List Nat)), c ≠ []) ∧
    ([[3]] : List (List Nat)).length < 2 ∧
    ((∀ (n : Nat) (evs2 : List ReadEvent),
      scatterAux (n + 1) (Except.error () :: evs2) = (evs2, [], false)) ∧
    scatterAux 2 (([[3]] : List (List Nat)).map Except.ok ++
        (Except.error () :: [Except.ok [4]])) =
      ([Except.ok [4]], [[3]], false) ∧
    encodeLoop toyGen 2 (1 + 1) (([[3]] : List (List Nat)).map Except.ok ++
        (Except.error () :: [Except.ok [4]])) ⟨0, [], []⟩ =
      encodeLoop toyGen 2 1 [Except.ok [4]]
        (gatherSt toyGen [[3]] ⟨0, [], []⟩)) :=
  ⟨by simp, by simp,
    claim_C7_read_error_continues toyGen 2 1 [[3]] (by simp) (by simp)
      [Except.ok [4]] ⟨0, [], []⟩⟩

/-- C10: the decode entry point is not atomic with respect to its sink:
after successfully decoding blocks and then hitting a format error (a bad
marker or a failing block decoder), the loop returns an error while the
bytes of the already-decoded blocks are in the sink and are not rolled
back. -/
theorem claim_C10_partial_output (db : List Bool → Option (List Nat × Nat))
    (l : List (List Bool × List Nat))
    (hl : ∀ pb ∈ l, ∀ rest, db (pb.1 ++ rest) = some (pb.2, pb.1.length))
    (tail : List Bool)
    (htail : what_next tail = Except.error () ∨
      ∃ t, tail = bitsOfBytes blockMagic ++ t ∧ db t = none) :
    ∀ (fuel : Nat) (sink : List Nat), l.length < fuel →
      decodeLoop db fuel
          ((l.map (fun pb => bitsOfBytes blockMagic ++ pb.1)).flatten ++ tail)
          sink =
        (sink ++ (l.map Prod.snd).flatten, Except.error ()) := by
  induction l with
  | nil =>
      intro fuel sink hfuel
      match fuel, hfuel with
      | f + 1, _ =>
          rw [decodeLoop_succ]
          simp only [List.map_nil, List.flatten_nil, List.nil_append]
          rcases htail with herr | ⟨t, htl, hdb⟩
          · rw [herr]
            simp
          · rw [htl, what_next_block]
            simp only [hdb]
            simp
  | cons pb l' ih =>
      intro fuel sink hfuel
      obtain ⟨p, b⟩ := pb
      have hpb : ∀ rest, db (p ++ rest) = some (b, p.length) :=
        fun rest => hl (p, b) (by simp) rest
      match fuel, hfuel with
      | f + 1, hf =>
          rw [decodeLoop_succ, List.map_cons, List.flatten_cons]
          simp only [List.append_assoc]
          rw [what_next_block]
          simp only [hpb, List.drop_left]
          rw [ih (fun x hx rest => hl x (by simp [hx]) rest) f (sink ++ b)
              (by simp at hf ⊢; omega)]
          simp

theorem claim_C10_partial_output_witness :
    (∀ pb ∈ ([(toyPayload [5], [5])] : List (List Bool × List Nat)),
      ∀ rest, toyDb (pb.1 ++ rest) = some (pb.2, pb.1.length)) ∧
    (what_next [] = Except.error () ∨
      ∃ t, ([] : List Bool) = bitsOfBytes blockMagic ++ t ∧ toyDb t = none) ∧
    ([(toyPayload [5], [5])] : List (List Bool × List Nat)).length < 2 ∧
    decodeLoop toyDb 2
        ((([(toyPayload [5], [5])] : List (List Bool × List Nat)).map
          (fun pb => bitsOfBytes blockMagic ++ pb.1)).flatten ++ [])
        [7] =
      ([7] ++ (([(toyPayload [5], [5])] : List (List Bool × List Nat)).map
        Prod.snd).flatten, Except.error ()) := by
  have hl : ∀ pb ∈ ([(toyPayload [5], [5])] : List (List Bool × List Nat)),
      ∀ rest, toyDb (pb.1 ++ rest) = some (pb.2, pb.1.length) := by
    intro pb hpb rest
    rw [List.mem_singleton.mp hpb]
    exact toyDb_toyPayload [5] (by decide) rest
  have htail : what_next ([] : List Bool) = Except.error () ∨
      ∃ t, ([] : List Bool) = bitsOfBytes blockMagic ++ t ∧ toyDb t = none :=
    Or.inl rfl
  exact ⟨hl, htail, by simp,
    claim_C10_partial_output toyDb [(toyPayload [5], [5])] hl [] htail 2 [7]
      (by simp)⟩

end Ribzip2
